import Mathlib

/-!
Verification of the tree-mutation model of the branching-story visualizer
(`src/app.py`, plus the earlier revisions concatenated in
`src/unnamed/part_000`).  The story structure the scripts keep in
`st.session_state.story_data` is a nested record (dict) with keys
"name", "description", "children", and optionally "achievement" and
"merge_target"; the helpers modelled here are `extract_node_paths`,
`get_node_by_path`, `update_node_children` (final, appending revision and
the early, replacing revision), the merge-branch processing loop of the
"Create Branch" handler, and the fallback structures of `get_story_json`.
-/

set_option linter.unusedVariables false

namespace StoryApp

/-- Achievement payload built by app.py as a dict with keys "type",
"title" and "description" (e.g. lines 928-932). -/
structure Achievement where
  type_ : String
  title : String
  description : String
deriving Repr, DecidableEq

/-- A story node as held in `st.session_state.story_data` of app.py: a
dict with keys "name", "description", "children", optionally
"achievement" and "merge_target" (the latter stores a path, i.e. a list
of child indices, app.py line 939).  A missing "children" key behaves
exactly like the empty list in every code path modelled here
(`node.get("children", [])` is used for reading, and
`update_node_children` materialises the key as `[]` before appending),
so `children` is modelled as a plain list. -/
inductive Node : Type where
  | mk (name : String) (description : String) (children : List Node)
      (achievement : Option Achievement) (merge_target : Option (List Nat)) : Node

/-- Projection: the "name" field. -/
def Node.name : Node → String
  | .mk n _ _ _ _ => n

/-- Projection: the "description" field. -/
def Node.description : Node → String
  | .mk _ d _ _ _ => d

/-- Projection: the "children" field. -/
def Node.children : Node → List Node
  | .mk _ _ cs _ _ => cs

/-- Projection: the "achievement" field. -/
def Node.achievement : Node → Option Achievement
  | .mk _ _ _ a _ => a

/-- Projection: the "merge_target" field. -/
def Node.merge_target : Node → Option (List Nat)
  | .mk _ _ _ _ m => m

/-- In-place assignment `node["children"] = cs` modelled functionally. -/
def Node.withChildren : Node → List Node → Node
  | .mk n d _ a m, cs => .mk n d cs a m

/-- In-place assignment `node["achievement"] = a` modelled functionally. -/
def Node.withAchievement : Node → Achievement → Node
  | .mk n d cs _ m, a => .mk n d cs (some a) m

@[simp] theorem Node.children_withChildren (t : Node) (cs : List Node) :
    (t.withChildren cs).children = cs := by
  cases t; rfl

@[simp] theorem Node.name_withChildren (t : Node) (cs : List Node) :
    (t.withChildren cs).name = t.name := by
  cases t; rfl

@[simp] theorem Node.withChildren_children (t : Node) :
    t.withChildren t.children = t := by
  cases t; rfl

/-- Nested-induction principle for `Node` (the children list is handled by
the nested recursor). -/
theorem Node.ind {P : Node → Prop}
    (h : ∀ n d cs a m, (∀ c ∈ cs, P c) → P (.mk n d cs a m)) : ∀ t, P t := by
  intro t
  induction t using Node.rec with
  | mk n d cs a m ih => exact h n d cs a m ih
  | nil => exact fun c hc => absurd hc (List.not_mem_nil c)
  | cons hd tl ihh iht =>
      intro c hc
      rcases List.mem_cons.mp hc with h1 | h2
      · exact h1 ▸ ihh
      · exact iht c h2

mutual

/-- Total number of nodes of a story structure (the measure "total node
count" of the spec; the renderer computes it as
`root.descendants().length`). -/
def count_nodes : Node → Nat
  | .mk _ _ cs _ _ => 1 + count_list cs

/-- Total number of nodes of a list of story structures. -/
def count_list : List Node → Nat
  | [] => 0
  | c :: cs => count_nodes c + count_list cs

end

theorem count_list_append (a b : List Node) :
    count_list (a ++ b) = count_list a + count_list b := by
  induction a with
  | nil => simp [count_list]
  | cons c cs ih => simp [count_list, ih, Nat.add_assoc]

/-- Helper `get_node_by_path` of app.py (lines 789-796):

    def get_node_by_path(root, path):
        node = root
        for index in path:
            if index < len(node.get("children", [])):
                node = node["children"][index]
            else:
                return None
        return node

The `for` loop over the path is modelled by recursion on the path; the
bounds check `index < len(children)` followed by the indexing
`node["children"][index]` is modelled by the checked lookup `[index]?`. -/
def get_node_by_path : Node → List Nat → Option Node
  | node, [] => some node
  | node, index :: rest =>
      match node.children[index]? with
      | some child => get_node_by_path child rest
      | none => none

/-- Helper `update_node_children` of app.py (lines 954-968, the final,
appending revision):

    def update_node_children(node, path, index, new_children):
        if index >= len(path):
            if "children" not in node:
                node["children"] = []
            node["children"] = node.get("children", []) + new_children
            return True
        if "children" not in node or index >= len(path) or path[index] >= len(node["children"]):
            return False
        return update_node_children(node["children"][path[index]], path, index + 1, new_children)

Python passes the full path plus a running index and examines
`path[index]`; here the remaining suffix of the path (initially the whole
path, since the call site uses index 0) is passed instead.  The Python
function mutates the tree in place and returns a bool; the model returns
the success flag together with the resulting tree. -/
def update_node_children : Node → List Nat → List Node → Bool × Node
  | node, [], new_children =>
      (true, node.withChildren (node.children ++ new_children))
  | node, i :: rest, new_children =>
      match node.children[i]? with
      | some child =>
          ((update_node_children child rest new_children).1,
            node.withChildren (node.children.set i
              (update_node_children child rest new_children).2))
      | none => (false, node)

/-- Helper `update_node_children` of the early revision
(`src/unnamed/part_000`, lines 1120-1130), which REPLACES the target
node's children instead of appending:

    def update_node_children(node, path, index, new_children):
        if index >= len(path):
            node["children"] = new_children
            return True
        if "children" not in node or index >= len(path) or path[index] >= len(node["children"]):
            return False
        return update_node_children(node["children"][path[index]], path, index + 1, new_children)
-/
def update_node_children_v0 : Node → List Nat → List Node → Bool × Node
  | node, [], new_children =>
      (true, node.withChildren new_children)
  | node, i :: rest, new_children =>
      match node.children[i]? with
      | some child =>
          ((update_node_children_v0 child rest new_children).1,
            node.withChildren (node.children.set i
              (update_node_children_v0 child rest new_children).2))
      | none => (false, node)

/-- Spec-side reachability: `Reaches t p n` holds when following the child
indices of `p` from `t`, each index being in range at its step, ends at
`n`. -/
inductive Reaches : Node → List Nat → Node → Prop where
  | refl (t : Node) : Reaches t [] t
  | step {t : Node} {i : Nat} {rest : List Nat} {child n : Node}
      (h : t.children[i]? = some child)
      (hr : Reaches child rest n) : Reaches t (i :: rest) n

theorem list_set_getElem_self : ∀ (l : List Node) (i : Nat) (c : Node),
    l[i]? = some c → l.set i c = l
  | [], _, _, h => by simp at h
  | a :: l, 0, c, h => by
      simp only [List.getElem?_cons_zero, Option.some.injEq] at h
      simp [h]
  | a :: l, i + 1, c, h => by
      simp only [List.getElem?_cons_succ] at h
      simp [List.set, list_set_getElem_self l i c h]

/-- Success and effect of a graft on a resolving path: the update returns
True and the node at the path ends with its old children followed by the
new ones. -/
theorem update_succeeds_of_get (p : List Nat) (t n : Node) (new : List Node)
    (h : get_node_by_path t p = some n) :
    (update_node_children t p new).1 = true ∧
      get_node_by_path (update_node_children t p new).2 p =
        some (n.withChildren (n.children ++ new)) := by
  induction p generalizing t with
  | nil =>
      simp only [get_node_by_path, Option.some.injEq] at h
      subst h
      simp [update_node_children, get_node_by_path]
  | cons i rest ih =>
      cases hc : t.children[i]? with
      | none =>
          rw [get_node_by_path, hc] at h
          exact absurd h (by simp)
      | some child =>
          rw [get_node_by_path, hc] at h
          obtain ⟨h1, h2⟩ := ih _ h
          have hlt : i < t.children.length := (List.getElem?_eq_some_iff.mp hc).1
          simp only [update_node_children, hc]
          refine ⟨h1, ?_⟩
          simp only [get_node_by_path, Node.children_withChildren]
          rw [List.getElem?_set_self hlt]
          exact h2

/-- C4 core: a failing update returns the tree unchanged. -/
theorem update_fail_eq (p : List Nat) (t : Node) (new : List Node)
    (h : (update_node_children t p new).1 = false) :
    (update_node_children t p new).2 = t := by
  induction p generalizing t with
  | nil => simp [update_node_children] at h
  | cons i rest ih =>
      cases hc : t.children[i]? with
      | none => simp [update_node_children, hc]
      | some child =>
          simp only [update_node_children, hc] at h ⊢
          rw [ih _ h, list_set_getElem_self _ _ _ hc, Node.withChildren_children]

/-- C1: for every story tree, every path resolving to a node `n`, and any
two batches of new subtrees grafted one after the other at that path, the
node at the path afterwards carries exactly its original children followed
by the first batch and then the second, in order — never reordered, never
replaced. -/
theorem graft_appends_in_order (t : Node) (p : List Nat) (n : Node)
    (l1 l2 : List Node) (h : get_node_by_path t p = some n) :
    ∃ n2 : Node,
      get_node_by_path
          (update_node_children (update_node_children t p l1).2 p l2).2 p = some n2 ∧
        n2.children = n.children ++ l1 ++ l2 := by
  obtain ⟨_, h1⟩ := update_succeeds_of_get p t n l1 h
  obtain ⟨_, h2⟩ := update_succeeds_of_get p _ _ l2 h1
  exact ⟨_, h2, by simp⟩

/-- Witness for C1: grafting [A, B] and then [C] onto the child node of a
concrete two-node tree leaves its children equal to [A, B, C]. -/
theorem graft_appends_in_order_witness :
    ∃ n2 : Node,
      get_node_by_path
          (update_node_children
            (update_node_children
              (Node.mk "root" "" [Node.mk "a" "" [] none none] none none)
              [0] [Node.mk "A" "" [] none none, Node.mk "B" "" [] none none]).2
            [0] [Node.mk "C" "" [] none none]).2 [0] = some n2 ∧
        n2.children = (Node.mk "a" "" [] none none).children ++
            [Node.mk "A" "" [] none none, Node.mk "B" "" [] none none] ++
            [Node.mk "C" "" [] none none] :=
  graft_appends_in_order
    (Node.mk "root" "" [Node.mk "a" "" [] none none] none none)
    [0] (Node.mk "a" "" [] none none)
    [Node.mk "A" "" [] none none, Node.mk "B" "" [] none none]
    [Node.mk "C" "" [] none none] (by rfl)

/-- C4: graft failure is atomic — when `update_node_children` returns
False (the path does not resolve), the resulting tree is exactly the
original one, so in particular the total node count and every node's
fields are unchanged. -/
theorem graft_failure_atomic (t : Node) (p : List Nat) (new : List Node)
    (h : (update_node_children t p new).1 = false) :
    (update_node_children t p new).2 = t ∧
      count_nodes (update_node_children t p new).2 = count_nodes t := by
  have he := update_fail_eq p t new h
  exact ⟨he, congrArg count_nodes he⟩

/-- Witness for C4: grafting at the non-resolving path [5] of a concrete
one-child tree fails and leaves the tree unchanged. -/
theorem graft_failure_atomic_witness :
    (update_node_children
        (Node.mk "root" "" [Node.mk "a" "" [] none none] none none)
        [5] [Node.mk "A" "" [] none none]).2 =
      Node.mk "root" "" [Node.mk "a" "" [] none none] none none ∧
      count_nodes (update_node_children
        (Node.mk "root" "" [Node.mk "a" "" [] none none] none none)
        [5] [Node.mk "A" "" [] none none]).2 =
      count_nodes (Node.mk "root" "" [Node.mk "a" "" [] none none] none none) :=
  graft_failure_atomic
    (Node.mk "root" "" [Node.mk "a" "" [] none none] none none)
    [5] [Node.mk "A" "" [] none none] (by rfl)

/-- C7: the path lookup returns exactly the node reached by following the
child indices when every index is in range at its step (the spec-side
relation `Reaches`), and `none` (the NotFound result) otherwise; being a
total function into `Option`, it never raises and never returns a node
for a non-resolving path. -/
theorem get_node_by_path_correct (t : Node) (p : List Nat) (n : Node) :
    get_node_by_path t p = some n ↔ Reaches t p n := by
  induction p generalizing t with
  | nil =>
      simp only [get_node_by_path, Option.some.injEq]
      constructor
      · rintro rfl; exact .refl t
      · intro hr; cases hr; rfl
  | cons i rest ih =>
      cases hc : t.children[i]? with
      | some child =>
          rw [get_node_by_path, hc, ih]
          constructor
          · exact fun hr => .step hc hr
          · intro hr
            cases hr with
            | step h hr =>
                rw [hc] at h
                injection h with he
                exact he ▸ hr
      | none =>
          rw [get_node_by_path, hc]
          constructor
          · intro hr; exact absurd hr (by simp)
          · intro hr
            cases hr with
            | step h hr =>
                rw [hc] at h
                exact absurd h (by simp)

theorem Node.withChildren_inj (t : Node) (a b : List Node) :
    t.withChildren a = t.withChildren b ↔ a = b := by
  cases t
  simp [Node.withChildren]

theorem list_set_inj (l : List Node) (i : Nat) (a b : Node) (h : i < l.length) :
    l.set i a = l.set i b ↔ a = b := by
  constructor
  · intro he
    have := congrArg (fun s => s[i]?) he
    simpa [List.getElem?_set_self h] using this
  · intro he; rw [he]

/-- Equivalence behaviour of the two revisions on a resolving path. -/
theorem update_revisions_agree_iff (p : List Nat) (t n : Node) (new : List Node)
    (h : get_node_by_path t p = some n) (hne : new ≠ []) :
    (update_node_children t p new).2 = (update_node_children_v0 t p new).2 ↔
      n.children = [] := by
  induction p generalizing t with
  | nil =>
      simp only [get_node_by_path, Option.some.injEq] at h
      subst h
      simp only [update_node_children, update_node_children_v0,
        Node.withChildren_inj]
      constructor
      · intro he
        have hl := congrArg List.length he
        simp only [List.length_append] at hl
        exact List.eq_nil_of_length_eq_zero (by omega)
      · intro he; rw [he]; simp
  | cons i rest ih =>
      cases hc : t.children[i]? with
      | none =>
          rw [get_node_by_path, hc] at h
          exact absurd h (by simp)
      | some child =>
          rw [get_node_by_path, hc] at h
          have hlt : i < t.children.length := (List.getElem?_eq_some_iff.mp hc).1
          simp only [update_node_children, update_node_children_v0, hc,
            Node.withChildren_inj, list_set_inj _ _ _ _ hlt]
          exact ih _ h

/-- C5: the early-revision extension update (children are REPLACED by the
new branch list, src/unnamed/part_000 lines 1120-1130) and the
final-revision update (children are APPENDED to, app.py lines 954-968)
are not extensionally equal: a concrete tree, resolving path and
non-empty branch list produce different resulting trees, and in general
on a resolving path and a non-empty branch list the two agree exactly
when the target node starts with no children. -/
theorem update_revisions_differ :
    (∃ (t : Node) (p : List Nat) (new : List Node) (n : Node),
        get_node_by_path t p = some n ∧ new ≠ [] ∧
          (update_node_children t p new).2 ≠ (update_node_children_v0 t p new).2) ∧
      ∀ (p : List Nat) (t n : Node) (new : List Node),
        get_node_by_path t p = some n → new ≠ [] →
          ((update_node_children t p new).2 = (update_node_children_v0 t p new).2 ↔
            n.children = []) := by
  constructor
  · refine ⟨Node.mk "r" "" [Node.mk "a" "" [] none none] none none, [],
      [Node.mk "B" "" [] none none],
      Node.mk "r" "" [Node.mk "a" "" [] none none] none none, rfl, by simp, ?_⟩
    intro he
    have := (update_revisions_agree_iff []
        (Node.mk "r" "" [Node.mk "a" "" [] none none] none none)
        (Node.mk "r" "" [Node.mk "a" "" [] none none] none none)
        [Node.mk "B" "" [] none none] rfl (by simp)).mp he
    simp [Node.children] at this
  · exact fun p t n new h hne => update_revisions_agree_iff p t n new h hne

/-- Witness for C5: the general agreement criterion applied to a concrete
tree whose target node has one child, where the two revisions disagree. -/
theorem update_revisions_differ_witness :
    (update_node_children
          (Node.mk "r" "" [Node.mk "a" "" [] none none] none none) []
          [Node.mk "B" "" [] none none]).2 =
        (update_node_children_v0
          (Node.mk "r" "" [Node.mk "a" "" [] none none] none none) []
          [Node.mk "B" "" [] none none]).2 ↔
      (Node.mk "r" "" [Node.mk "a" "" [] none none] none none).children = [] :=
  update_revisions_differ.2 []
    (Node.mk "r" "" [Node.mk "a" "" [] none none] none none)
    (Node.mk "r" "" [Node.mk "a" "" [] none none] none none)
    [Node.mk "B" "" [] none none] rfl (by simp)

mutual

/-- Helper `extract_node_paths` of app.py (lines 767-786):

    def extract_node_paths(node, path=None, prefix=""):
        if path is None:
            path = []
        result = []
        current_path = path.copy()
        name = prefix + node.get("name", "Unnamed")
        st.session_state.node_paths[name] = current_path
        result.append(name)
        for i, child in enumerate(node.get("children", [])):
            child_path = current_path.copy()
            child_path.append(i)
            child_results = extract_node_paths(child, child_path, prefix + "→ ")
            result.extend(child_results)
        return result

The first component of the result is the returned `result` list of
display names; the second component is the sequence of writes
`node_paths[name] = current_path` in execution order (a node's own write
comes before those of its subtree, children left to right).  A missing
"name" key yields the literal "Unnamed"; the model keeps the field
always present. -/
def extract_node_paths : Node → List Nat → String →
    List String × List (String × List Nat)
  | .mk name _ cs _ _, path, pre =>
      let label := pre ++ name
      let rest := extract_children cs 0 path (pre ++ "→ ")
      (label :: rest.1, (label, path) :: rest.2)

/-- The `for i, child in enumerate(...)` loop of `extract_node_paths`,
carrying the running child index. -/
def extract_children : List Node → Nat → List Nat → String →
    List String × List (String × List Nat)
  | [], _, _, _ => ([], [])
  | c :: cs, i, path, pre =>
      let r1 := extract_node_paths c (path ++ [i]) pre
      let r2 := extract_children cs (i + 1) path pre
      (r1.1 ++ r2.1, r1.2 ++ r2.2)

end

/-- Arrow marker written in front of a display name, one copy per tree
level (`prefix + "→ "` in `extract_node_paths`). -/
def arrows : Nat → String
  | 0 => ""
  | d + 1 => "→ " ++ arrows d

mutual

/-- Spec-side depth-first pre-order enumeration of a story tree: the node
itself first, then the pre-order enumerations of the children in stored
order, each node paired with its depth. -/
def preorder_depth : Node → List (Node × Nat)
  | .mk n d cs a m => (.mk n d cs a m, 0) :: preorder_depth_list cs

/-- Pre-order enumerations of a list of children, depths shifted one
level down. -/
def preorder_depth_list : List Node → List (Node × Nat)
  | [] => []
  | c :: cs =>
      (preorder_depth c).map (fun nd => (nd.1, nd.2 + 1)) ++ preorder_depth_list cs

end

theorem preorder_depth_length :
    ∀ t : Node, (preorder_depth t).length = count_nodes t := by
  intro t
  induction t using Node.ind with
  | h n d cs a m IH =>
      rw [preorder_depth, count_nodes]
      simp only [List.length_cons]
      have : ∀ cs : List Node, (∀ c ∈ cs, (preorder_depth c).length = count_nodes c) →
          (preorder_depth_list cs).length = count_list cs := by
        intro cs
        induction cs with
        | nil => intro _; rfl
        | cons c cs ihl =>
            intro hmem
            rw [preorder_depth_list, count_list]
            simp only [List.length_append, List.length_map]
            rw [hmem c (by simp), ihl (fun x hx => hmem x (by simp [hx]))]
      rw [this cs IH]
      omega

theorem extract_children_names (cs : List Node)
    (IH : ∀ c ∈ cs, ∀ (path : List Nat) (pre : String),
      (extract_node_paths c path pre).1 =
        (preorder_depth c).map (fun nd => pre ++ arrows nd.2 ++ nd.1.name)) :
    ∀ (i : Nat) (path : List Nat) (pre : String),
      (extract_children cs i path (pre ++ "→ ")).1 =
        (preorder_depth_list cs).map (fun nd => pre ++ arrows nd.2 ++ nd.1.name) := by
  induction cs with
  | nil => intro i path pre; rfl
  | cons c cs ihl =>
      intro i path pre
      rw [extract_children, preorder_depth_list]
      simp only [List.map_append, List.map_map]
      rw [IH c (by simp) (path ++ [i]) (pre ++ "→ "),
        ihl (fun x hx => IH x (by simp [hx])) (i + 1) path pre]
      congr 1
      apply List.map_congr_left
      intro nd _
      simp only [Function.comp_apply, arrows]
      rw [← String.append_assoc]

/-- C6: the traversal that populates the node-selection view
(`extract_node_paths`) yields exactly the depth-first pre-order
enumeration of the nodes reachable from the root via `children` —
entry k of the returned name list is the display label (depth-many
arrow markers followed by the name) of entry k of the spec-side
pre-order sequence, and the number of entries equals the total node
count, so every reachable node occurs exactly once and each node's entry
precedes those of its subtree. -/
theorem traversal_preorder_complete (t : Node) :
    (extract_node_paths t [] "").1 =
        (preorder_depth t).map (fun nd => arrows nd.2 ++ nd.1.name) ∧
      (preorder_depth t).length = count_nodes t := by
  refine ⟨?_, preorder_depth_length t⟩
  have main : ∀ t : Node, ∀ (path : List Nat) (pre : String),
      (extract_node_paths t path pre).1 =
        (preorder_depth t).map (fun nd => pre ++ arrows nd.2 ++ nd.1.name) := by
    intro t
    induction t using Node.ind with
    | h n d cs a m IH =>
        intro path pre
        rw [extract_node_paths, preorder_depth]
        simp only [List.map_cons]
        rw [extract_children_names cs IH 0 path pre]
        simp [arrows, Node.name]
  have := main t [] ""
  simpa using this

theorem extract_children_shape (cs : List Node)
    (IH : ∀ c ∈ cs, ∀ (path : List Nat) (pre : String),
      ∀ e ∈ (extract_node_paths c path pre).2,
        ∃ sub tail, get_node_by_path c tail = some sub ∧ e.2 = path ++ tail) :
    ∀ (i : Nat) (path : List Nat) (pre : String),
      ∀ e ∈ (extract_children cs i path pre).2,
        ∃ k c, cs[k]? = some c ∧ ∃ sub tail,
          get_node_by_path c tail = some sub ∧ e.2 = path ++ (i + k) :: tail := by
  induction cs with
  | nil => intro i path pre e he; simp [extract_children] at he
  | cons c cs ihl =>
      intro i path pre e he
      rw [extract_children] at he
      simp only [List.mem_append] at he
      rcases he with h1 | h2
      · obtain ⟨sub, tail, hget, hpath⟩ := IH c (by simp) (path ++ [i]) pre e h1
        refine ⟨0, c, by simp, sub, tail, hget, ?_⟩
        rw [hpath, List.append_assoc]
        simp
      · obtain ⟨k, c2, hk, sub, tail, hget, hpath⟩ :=
          ihl (fun x hx => IH x (by simp [hx])) (i + 1) path pre e h2
        refine ⟨k + 1, c2, by simpa using hk, sub, tail, hget, ?_⟩
        rw [hpath]
        have : i + 1 + k = i + (k + 1) := by omega
        rw [this]

/-- Every write recorded by `extract_node_paths` stores a path of the
form `path ++ tail` where `tail` resolves inside the visited subtree. -/
theorem extract_shape : ∀ (t : Node) (path : List Nat) (pre : String),
    ∀ e ∈ (extract_node_paths t path pre).2,
      ∃ sub tail, get_node_by_path t tail = some sub ∧ e.2 = path ++ tail := by
  intro t
  induction t using Node.ind with
  | h n d cs a m IH =>
      intro path pre e he
      rw [extract_node_paths] at he
      simp only [List.mem_cons] at he
      rcases he with h1 | h2
      · exact ⟨.mk n d cs a m, [], rfl, by simp [h1]⟩
      · obtain ⟨k, c, hk, sub, tail, hget, hpath⟩ :=
          extract_children_shape cs IH 0 path (pre ++ "→ ") e h2
        refine ⟨sub, k :: tail, ?_, by simpa using hpath⟩
        rw [get_node_by_path]
        simp only [Node.children]
        rw [hk]
        exact hget

theorem path_head_getElem (path tail : List Nat) (j : Nat) :
    (path ++ j :: tail)[path.length]? = some j := by
  rw [List.getElem?_append_right (Nat.le_refl _)]
  simp

theorem extract_children_paths_nodup (cs : List Node)
    (IH : ∀ c ∈ cs, ∀ (path : List Nat) (pre : String),
      ((extract_node_paths c path pre).2.map Prod.snd).Nodup) :
    ∀ (i : Nat) (path : List Nat) (pre : String),
      ((extract_children cs i path pre).2.map Prod.snd).Nodup := by
  induction cs with
  | nil => intro i path pre; simp [extract_children]
  | cons c cs ihl =>
      intro i path pre
      rw [extract_children]
      simp only [List.map_append]
      rw [List.nodup_append]
      refine ⟨IH c (by simp) _ _, ihl (fun x hx => IH x (by simp [hx])) (i + 1) path pre, ?_⟩
      intro q hq1 hq2
      obtain ⟨e1, he1, hq1e⟩ := List.mem_map.mp hq1
      obtain ⟨sub1, tail1, _, hp1⟩ := extract_shape c (path ++ [i]) pre e1 he1
      obtain ⟨e2, he2, hq2e⟩ := List.mem_map.mp hq2
      obtain ⟨k, c2, _, sub2, tail2, _, hp2⟩ :=
        extract_children_shape cs
          (fun x _ px prx e he => extract_shape x px prx e he) (i + 1) path pre e2 he2
      have hq12 : e1.2 = e2.2 := by rw [hq1e, hq2e]
      rw [hp1, hp2] at hq12
      have := congrArg (fun l => l[path.length]?) hq12
      simp only at this
      rw [List.append_assoc, List.singleton_append, path_head_getElem,
        path_head_getElem] at this
      simp only [Option.some.injEq] at this
      omega

/-- The paths written to `node_paths` by one run of `extract_node_paths`
are pairwise distinct. -/
theorem extract_paths_nodup : ∀ (t : Node) (path : List Nat) (pre : String),
    ((extract_node_paths t path pre).2.map Prod.snd).Nodup := by
  intro t
  induction t using Node.ind with
  | h n d cs a m IH =>
      intro path pre
      rw [extract_node_paths]
      simp only [List.map_cons]
      rw [List.nodup_cons]
      constructor
      · intro hmem
        obtain ⟨e, he, hq⟩ := List.mem_map.mp hmem
        obtain ⟨k, c, _, sub, tail, _, hp⟩ :=
          extract_children_shape cs
            (fun x _ px prx e2 he2 => extract_shape x px prx e2 he2)
            0 path (pre ++ "→ ") e he
        rw [hp] at hq
        have := congrArg List.length hq
        simp at this
      · exact extract_children_paths_nodup cs IH 0 path (pre ++ "→ ")

/-- Counterexample to C3: in a concrete tree whose root "R" has two
children both named "X", the two children receive the same display label
"→ X", so the labels keyed into `node_paths` are not distinct node
identities. -/
theorem node_labels_not_distinct :
    ¬ ((extract_node_paths
        (Node.mk "R" "" [Node.mk "X" "" [] none none, Node.mk "X" "" [] none none]
          none none) [] "").1.Nodup) := by
  intro h
  rw [show (extract_node_paths
      (Node.mk "R" "" [Node.mk "X" "" [] none none, Node.mk "X" "" [] none none]
        none none) [] "").1 = ["R", "→ X", "→ X"] from rfl] at h
  simp at h

/-- C3 amended: display labels are not distinct identities (two
same-named nodes at the same depth share a label); what is distinct is
each node's path — one run of `extract_node_paths` writes pairwise
distinct paths to `node_paths`, so node identity by path is unique. -/
theorem node_identities_distinct_by_path (t : Node) :
    ((extract_node_paths t [] "").2.map Prod.snd).Nodup :=
  extract_paths_nodup t [] ""

/-- Final content of the Python dict `st.session_state.node_paths` after
the writes in `store` are performed in order: a later write to the same
key overwrites an earlier one. -/
def dict_of : List (String × List Nat) → String → Option (List Nat)
  | [], _ => none
  | e :: rest, k =>
      match dict_of rest k with
      | some v => some v
      | none => if k = e.1 then some e.2 else none

theorem dict_of_no_key (st : List (String × List Nat)) (k : String)
    (h : ∀ e ∈ st, e.1 ≠ k) : dict_of st k = none := by
  induction st with
  | nil => rfl
  | cons e st ih =>
      rw [dict_of, ih (fun x hx => h x (by simp [hx]))]
      have : ¬ (k = e.1) := fun hk => h e (by simp) hk.symm
      simp [this]

theorem dict_of_last (st1 st2 : List (String × List Nat)) (k : String) (v : List Nat)
    (h : ∀ e ∈ st2, e.1 ≠ k) : dict_of (st1 ++ (k, v) :: st2) k = some v := by
  induction st1 with
  | nil =>
      rw [List.nil_append, dict_of, dict_of_no_key st2 k h]
      simp
  | cons e st1 ih =>
      rw [List.cons_append, dict_of, ih]

/-- C9: the `node_paths` dict built by `extract_node_paths` assigns to a
display label the path of the LAST pre-order node bearing that label —
when an earlier write `(label, p1)` is followed by a later write
`(label, p2)` after which the label is not written again, the final dict
maps the label to `p2`, a path distinct from `p1` and resolving in the
tree; a subsequent lookup-by-label therefore reaches the later node, not
necessarily the one the user selected. -/
theorem node_paths_last_write_wins (t : Node) (label : String) (p1 p2 : List Nat)
    (st1 st2 : List (String × List Nat))
    (hsplit : (extract_node_paths t [] "").2 = st1 ++ (label, p2) :: st2)
    (h1 : (label, p1) ∈ st1) (h2 : ∀ e ∈ st2, e.1 ≠ label) :
    dict_of (extract_node_paths t [] "").2 label = some p2 ∧ p1 ≠ p2 ∧
      get_node_by_path t p2 ≠ none := by
  refine ⟨by rw [hsplit]; exact dict_of_last st1 st2 label p2 h2, ?_, ?_⟩
  · have hn := extract_paths_nodup t [] ""
    rw [hsplit] at hn
    simp only [List.map_append, List.map_cons] at hn
    rw [List.nodup_append] at hn
    obtain ⟨_, _, hdisj⟩ := hn
    intro he
    exact hdisj (List.mem_map.mpr ⟨(label, p1), h1, rfl⟩) (by simp [he])
  · have hmem : (label, p2) ∈ (extract_node_paths t [] "").2 := by
      rw [hsplit]
      exact List.mem_append_right _ (by simp)
    obtain ⟨sub, tail, hget, hp⟩ := extract_shape t [] "" (label, p2) hmem
    simp only [List.nil_append] at hp
    intro hnone
    rw [show p2 = tail from hp, hget] at hnone
    exact Option.noConfusion hnone

/-- Witness for C9: in the concrete tree with two children both named
"X", the later write for label "→ X" wins — the dict resolves the label
to [1], not to the earlier path [0]. -/
theorem node_paths_last_write_wins_witness :
    dict_of (extract_node_paths
        (Node.mk "R" "" [Node.mk "X" "" [] none none, Node.mk "X" "" [] none none]
          none none) [] "").2 "→ X" = some [1] ∧ ([0] : List Nat) ≠ [1] ∧
      get_node_by_path
        (Node.mk "R" "" [Node.mk "X" "" [] none none, Node.mk "X" "" [] none none]
          none none) [1] ≠ none :=
  node_paths_last_write_wins
    (Node.mk "R" "" [Node.mk "X" "" [] none none, Node.mk "X" "" [] none none]
      none none) "→ X" [0] [1]
    [("R", []), ("→ X", [0])] []
    (by rfl) (by simp) (by simp)

/-- Achievement dict created for the cut-off node of a merge branch
(app.py lines 928-932; the Python default "Branch" for a missing name is
not modelled since the name field is always present here). -/
def completed_achievement (n : Node) : Achievement :=
  ⟨"Achievement", "Completed: " ++ n.name,
    "Congratulations! You completed the '" ++ n.name ++
      "' storyline and demonstrated excellent decision-making skills."⟩

/-- The merge pointer node created at app.py lines 935-940: an empty
children list and a "merge_target" field holding the destination PATH. -/
def mk_merge_node (dest_node_obj : Node) (dest_path : List Nat) : Node :=
  .mk ("Merge back to: " ++ dest_node_obj.name)
    ("This path merges back to the main storyline at '" ++
      dest_node_obj.name ++ "'.")
    [] none (some dest_path)

/-- Assignment of the achievement when the cut-off node has none yet
(app.py lines 927-932; in the merge path `is_alt_ending` is false). -/
def ensure_achievement (n : Node) : Node :=
  match n.achievement with
  | some _ => n
  | none => n.withAchievement (completed_achievement n)

/-- The per-branch walk of app.py lines 910-941 applied to one branch
copy: while the current node has children and fewer than
`branch_length - 2` steps were taken, descend to the first child; then
give the cut-off node an achievement if it lacks one and REPLACE its
children with the single merge pointer node.  `fuel` is the number of
steps still allowed (`branch_length - 2` at the top call). -/
def walk_and_cut : Node → Nat → Node → Node
  | node, fuel + 1, m =>
      match node.children with
      | c :: cs => node.withChildren (walk_and_cut c fuel m :: cs)
      | [] => (ensure_achievement node).withChildren [m]
  | node, 0, m => (ensure_achievement node).withChildren [m]

/-- Processing of one branch copy in the merge path (app.py lines
908-941); `branch_length` comes from a slider with minimum 2, so the
Python expression `branch_length - 2` is the truncated subtraction. -/
def process_branch (branch : Node) (branch_length : Nat)
    (dest_node_obj : Node) (dest_path : List Nat) : Node :=
  walk_and_cut branch (branch_length - 2) (mk_merge_node dest_node_obj dest_path)

/-- Net effect on the session story of one click of "Create Branch" in
the merge path of app.py (lines 894-994: a destination node was chosen,
`is_alt_ending` is false, and the source label resolves via
`node_paths`).  The handler deep-copies `branch_options` and runs the
walk-and-cut loop over each copy (lines 908-951), but only the
alt-ending arm (line 951) writes the copies back to `branch_options`;
in the merge path the processed copies are DISCARDED and each loop
iteration calls `update_node_children` with the original
`branch_options` (line 971).  The first successful update triggers
`st.rerun()`, so the net effect is a single append of the unprocessed
originals; with an empty `branch_options` the loop body never runs and
no update happens (modelled as result `none`). -/
def extend_story_merge (story : Node) (source_path dest_path : List Nat)
    (branch_options : List Node) (branch_length : Nat) : Option Bool × Node :=
  match get_node_by_path story dest_path with
  | some dest_node_obj =>
      let branch_options_copy :=
        branch_options.map
          (fun b => process_branch b branch_length dest_node_obj dest_path)
      if branch_options_copy.isEmpty then (none, story)
      else
        (some (update_node_children story source_path branch_options).1,
          (update_node_children story source_path branch_options).2)
  | none =>
      if branch_options.isEmpty then (none, story)
      else
        (some (update_node_children story source_path branch_options).1,
          (update_node_children story source_path branch_options).2)

theorem count_nodes_withChildren (t : Node) (cs : List Node) :
    count_nodes (t.withChildren cs) = 1 + count_list cs := by
  cases t; rfl

theorem count_list_set : ∀ (cs : List Node) (i : Nat) (c u : Node),
    cs[i]? = some c →
      count_list (cs.set i u) + count_nodes c = count_list cs + count_nodes u
  | [], _, _, _, h => by simp at h
  | a :: cs, 0, c, u, h => by
      simp only [List.getElem?_cons_zero, Option.some.injEq] at h
      subst h
      simp only [List.set, count_list]
      omega
  | a :: cs, i + 1, c, u, h => by
      simp only [List.getElem?_cons_succ] at h
      have := count_list_set cs i c u h
      simp only [List.set, count_list]
      omega

/-- A successful graft adds exactly the grafted nodes to the count. -/
theorem update_count (p : List Nat) (t : Node) (new : List Node)
    (h : (update_node_children t p new).1 = true) :
    count_nodes (update_node_children t p new).2 =
      count_nodes t + count_list new := by
  induction p generalizing t with
  | nil =>
      simp only [update_node_children]
      rw [count_nodes_withChildren, count_list_append]
      have hcount : count_nodes t = 1 + count_list t.children := by
        cases t; rfl
      omega
  | cons i rest ih =>
      cases hc : t.children[i]? with
      | none => simp [update_node_children, hc] at h
      | some child =>
          simp only [update_node_children, hc] at h ⊢
          have hrec := ih child h
          have hset := count_list_set t.children i child
            (update_node_children child rest new).2 hc
          rw [count_nodes_withChildren]
          have hcount : count_nodes t = 1 + count_list t.children := by
            cases t; rfl
          omega

/-- C2 amended: the code performs no merge-target validity check and has
no InvalidMergeTarget failure — extending with the merge destination
equal to the attachment point (hence inside its own subtree) SUCCEEDS
whenever the attachment path resolves and the branch list is non-empty,
appending the branches and increasing the total node count by their
size. -/
theorem merge_self_target_accepted (story : Node) (p : List Nat) (n : Node)
    (branches : List Node) (bl : Nat)
    (h : get_node_by_path story p = some n) (hne : branches ≠ []) :
    (extend_story_merge story p p branches bl).1 = some true ∧
      count_nodes (extend_story_merge story p p branches bl).2 =
        count_nodes story + count_list branches := by
  obtain ⟨hok, _⟩ := update_succeeds_of_get p story n branches h
  have hcnt := update_count p story branches hok
  cases branches with
  | nil => exact absurd rfl hne
  | cons b bs =>
      rw [extend_story_merge, h]
      simp only [List.map_cons, List.isEmpty_cons, if_false, Bool.false_eq_true,
        ite_false]
      exact ⟨by rw [hok], hcnt⟩

/-- Counterexample to C2: attaching a branch with the merge destination
equal to the attachment point [0] itself succeeds (no InvalidMergeTarget
exists in the code) and grows the node count from 2 to 3. -/
theorem merge_self_target_no_failure :
    (extend_story_merge
        (Node.mk "root" "" [Node.mk "A" "" [] none none] none none)
        [0] [0] [Node.mk "B" "b" [] none none] 3).1 = some true ∧
      count_nodes (extend_story_merge
        (Node.mk "root" "" [Node.mk "A" "" [] none none] none none)
        [0] [0] [Node.mk "B" "b" [] none none] 3).2 =
      count_nodes (Node.mk "root" "" [Node.mk "A" "" [] none none] none none)
        + 1 := by
  exact ⟨rfl, rfl⟩

/-- Witness for C2 (amended): the general statement applied to the same
concrete tree. -/
theorem merge_self_target_accepted_witness :
    (extend_story_merge
        (Node.mk "root" "" [Node.mk "A" "" [] none none] none none)
        [0] [0] [Node.mk "B" "b" [] none none] 3).1 = some true ∧
      count_nodes (extend_story_merge
        (Node.mk "root" "" [Node.mk "A" "" [] none none] none none)
        [0] [0] [Node.mk "B" "b" [] none none] 3).2 =
      count_nodes (Node.mk "root" "" [Node.mk "A" "" [] none none] none none)
        + count_list [Node.mk "B" "b" [] none none] :=
  merge_self_target_accepted
    (Node.mk "root" "" [Node.mk "A" "" [] none none] none none)
    [0] (Node.mk "A" "" [] none none) [Node.mk "B" "b" [] none none] 3
    (by rfl) (by simp)

/-- The walk of `walk_and_cut` stops after at most `fuel` steps down the
first-child chain, and the node where it stops has its children replaced
by exactly the single merge pointer node. -/
theorem walk_and_cut_bound : ∀ (fuel : Nat) (b m : Node),
    ∃ k ≤ fuel, ∃ nc,
      get_node_by_path (walk_and_cut b fuel m) (List.replicate k 0) = some nc ∧
        nc.children = [m] := by
  intro fuel
  induction fuel with
  | zero =>
      intro b m
      exact ⟨0, Nat.le_refl 0, (ensure_achievement b).withChildren [m], rfl, by simp⟩
  | succ f ih =>
      intro b m
      cases hb : b.children with
      | nil =>
          refine ⟨0, Nat.zero_le _, (ensure_achievement b).withChildren [m], ?_, by simp⟩
          rw [walk_and_cut, hb]
          rfl
      | cons c cs =>
          obtain ⟨k, hk, nc, hget, hch⟩ := ih c m
          refine ⟨k + 1, Nat.succ_le_succ hk, nc, ?_, hch⟩
          rw [walk_and_cut, hb, List.replicate_succ, get_node_by_path]
          simp only [Node.children_withChildren, List.getElem?_cons_zero]
          exact hget

/-- C10 amended: for each generated branch the code walks at most
branch_length - 2 steps down the first-child chain of a DEEP COPY of the
branch and replaces the cut-off copy node's children with exactly the
single merge pointer node (so in the copy everything below the cut-off
is dropped); siblings beyond the first child at the nodes the walk
passes through are preserved, not dropped; and because the processed
copies are never written back in the merge path, the branches actually
attached to the story are the ORIGINAL, unprocessed ones — the node at
the attachment point ends with its old children followed by the
unmodified branch records. -/
theorem merge_processing_discards_copies (story : Node) (p dp : List Nat)
    (n dest : Node) (branches : List Node) (bl : Nat)
    (h : get_node_by_path story p = some n) (hne : branches ≠ []) :
    (∀ b : Node, ∃ k ≤ bl - 2, ∃ nc,
        get_node_by_path (process_branch b bl dest dp) (List.replicate k 0) =
            some nc ∧
          nc.children = [mk_merge_node dest dp]) ∧
      (∀ (b c : Node) (cs : List Node), b.children = c :: cs → 0 < bl - 2 →
        (process_branch b bl dest dp).children.tail = cs) ∧
      get_node_by_path (extend_story_merge story p dp branches bl).2 p =
        some (n.withChildren (n.children ++ branches)) := by
  refine ⟨?_, ?_, ?_⟩
  · intro b
    exact walk_and_cut_bound (bl - 2) b (mk_merge_node dest dp)
  · intro b c cs hb hf
    cases hbl : bl - 2 with
    | zero => rw [hbl] at hf; exact absurd hf (by simp)
    | succ f =>
        rw [process_branch, hbl, walk_and_cut, hb]
        simp
  · obtain ⟨hok, hget⟩ := update_succeeds_of_get p story n branches h
    cases branches with
    | nil => exact absurd rfl hne
    | cons b bs =>
        rw [extend_story_merge]
        cases hdest : get_node_by_path story dp with
        | some dobj =>
            simp only [List.map_cons, List.isEmpty_cons, Bool.false_eq_true,
              ite_false]
            exact hget
        | none =>
            simp only [List.isEmpty_cons, Bool.false_eq_true, ite_false]
            exact hget

/-- Counterexample to C10: with branch_length 3, the branch
A[B[D], C] is attached to the story COMPLETELY UNCHANGED — the node
grafted under the attachment point is the original record, with D (below
the claimed cut-off B) still present, sibling C still present, and no
merge pointer anywhere — because the processed copy is discarded. -/
theorem merge_attaches_unprocessed_original :
    get_node_by_path
        (extend_story_merge
          (Node.mk "root" "" [Node.mk "S" "" [] none none] none none)
          [0] [0]
          [Node.mk "A" ""
            [Node.mk "B" "" [Node.mk "D" "" [] none none] none none,
              Node.mk "C" "" [] none none] none none] 3).2
        [0, 0] =
      some (Node.mk "A" ""
        [Node.mk "B" "" [Node.mk "D" "" [] none none] none none,
          Node.mk "C" "" [] none none] none none) := by
  rfl

/-- Witness for C10 (amended): the general statement applied to the
concrete story and branch of the counterexample. -/
theorem merge_processing_discards_copies_witness :
    (∀ b : Node, ∃ k ≤ 3 - 2, ∃ nc,
        get_node_by_path
            (process_branch b 3 (Node.mk "S" "" [] none none) [0])
            (List.replicate k 0) = some nc ∧
          nc.children = [mk_merge_node (Node.mk "S" "" [] none none) [0]]) ∧
      (∀ (b c : Node) (cs : List Node), b.children = c :: cs → 0 < 3 - 2 →
        (process_branch b 3 (Node.mk "S" "" [] none none) [0]).children.tail = cs) ∧
      get_node_by_path
          (extend_story_merge
            (Node.mk "root" "" [Node.mk "S" "" [] none none] none none)
            [0] [0] [Node.mk "Br" "" [] none none] 3).2 [0] =
        some ((Node.mk "S" "" [] none none).withChildren
          ((Node.mk "S" "" [] none none).children ++ [Node.mk "Br" "" [] none none])) :=
  merge_processing_discards_copies
    (Node.mk "root" "" [Node.mk "S" "" [] none none] none none)
    [0] [0] (Node.mk "S" "" [] none none) (Node.mk "S" "" [] none none)
    [Node.mk "Br" "" [] none none] 3 (by rfl) (by simp)

/-- Record of the modelled Python heap for the extension-mode fallback of
`get_story_json` (app.py lines 177-205): `children` holds heap ids
(positions in the store) instead of nested records, so that the sharing
of one dict object between the two option records stays visible. -/
structure RefNode where
  name : String
  description : String
  children : List Nat
deriving Repr, DecidableEq

/-- Element i of the Python list `branch_nodes` (app.py lines 179-192):

    for i in range(branch_length - 1):
        if i == branch_length - 2:
            branch_nodes.append({"name": "Final Node in Branch", ..., "children": []})
        else:
            branch_nodes.append({"name": f"Node {i+2} in Branch", ...,
                "children": [branch_nodes[-1]] if branch_nodes else []})

`branch_nodes[-1]` is the element appended on the PREVIOUS iteration, so
a non-final node at index i > 0 holds the id i - 1. -/
def branch_node (branch_length i : Nat) : RefNode :=
  if i == branch_length - 2 then
    ⟨"Final Node in Branch", "The conclusion of this branch of the story.", []⟩
  else
    ⟨"Node " ++ toString (i + 2) ++ " in Branch",
      "Continuing the story in this branch...",
      if i == 0 then [] else [i - 1]⟩

/-- The heap of the structure returned by the extension-mode fallback
(app.py lines 178-205): ids 0 .. branch_length - 2 are the
`branch_nodes` in creation order, id branch_length - 1 is "Option A" and
id branch_length is "Option B"; both options hold
`[branch_nodes[0]] if branch_nodes else []` as children — the SAME dict
object, id 0, whenever `branch_nodes` is non-empty. -/
def fallback_extension_store (branch_length : Nat) : List RefNode :=
  (List.range (branch_length - 1)).map (branch_node branch_length) ++
    [⟨"Option A", "This is the first possible branch of the story.",
        if branch_length - 1 == 0 then [] else [0]⟩,
      ⟨"Option B", "This is the second possible branch of the story.",
        if branch_length - 1 == 0 then [] else [0]⟩]

/-- Heap id `c` is a child of the record at heap id `p` in `store`. -/
def child_of (store : List RefNode) (p c : Nat) : Prop :=
  ∃ r, store[p]? = some r ∧ c ∈ r.children

/-- Counterexample to C8: at the default branch_length 3, the
extension-mode fallback's two option records (heap ids 2 and 3) share
the record with heap id 0 as a child — one record with two distinct
parents, so the ownership relation is not a tree — and the Option A
record's children array is not empty, contradicting the
children-stay-empty contract. -/
theorem fallback_extension_not_tree :
    child_of (fallback_extension_store 3) 2 0 ∧
      child_of (fallback_extension_store 3) 3 0 ∧ (2 : Nat) ≠ 3 ∧
      ∃ r, (fallback_extension_store 3)[2]? = some r ∧ r.children ≠ [] := by
  refine ⟨⟨⟨"Option A", "This is the first possible branch of the story.", [0]⟩,
      by rfl, by simp⟩,
    ⟨⟨"Option B", "This is the second possible branch of the story.", [0]⟩,
      by rfl, by simp⟩,
    by simp,
    ⟨"Option A", "This is the first possible branch of the story.", [0]⟩,
      by rfl, by simp⟩

/-- C8 amended: the structures the program holds are ownership trees
EXCEPT those incorporating the extension-mode fallback: for every
branch_length of the slider (at least 2), the fallback's two option
records, at the distinct heap ids branch_length - 1 and branch_length,
both hold heap id 0 (the first branch node) in their non-empty children
arrays — one shared record under two parents, so the fallback's
ownership relation is not a tree and its option records do not have
empty children. -/
theorem fallback_extension_shared_child (bl : Nat) (h : 2 ≤ bl) :
    ∃ rA rB, (fallback_extension_store bl)[bl - 1]? = some rA ∧
      (fallback_extension_store bl)[bl]? = some rB ∧
      rA.children = [0] ∧ rB.children = [0] ∧ bl - 1 ≠ bl ∧
      child_of (fallback_extension_store bl) (bl - 1) 0 ∧
      child_of (fallback_extension_store bl) bl 0 := by
  have hlen : ((List.range (bl - 1)).map (branch_node bl)).length = bl - 1 := by
    simp
  have hA : (fallback_extension_store bl)[bl - 1]? =
      some ⟨"Option A", "This is the first possible branch of the story.",
        if bl - 1 == 0 then [] else [0]⟩ := by
    rw [fallback_extension_store, List.getElem?_append_right (by omega), hlen]
    have h0 : bl - 1 - (bl - 1) = 0 := by omega
    rw [h0]
    rfl
  have hB : (fallback_extension_store bl)[bl]? =
      some ⟨"Option B", "This is the second possible branch of the story.",
        if bl - 1 == 0 then [] else [0]⟩ := by
    rw [fallback_extension_store, List.getElem?_append_right (by omega), hlen]
    have h1 : bl - (bl - 1) = 1 := by omega
    rw [h1]
    rfl
  have hnz : (bl - 1 == 0) = false := by
    have : bl - 1 ≠ 0 := by omega
    simpa using this
  rw [hnz] at hA hB
  simp only [Bool.false_eq_true, if_false] at hA hB
  refine ⟨_, _, hA, hB, rfl, rfl, by omega, ⟨_, hA, by simp⟩, ⟨_, hB, by simp⟩⟩

/-- Witness for C8 (amended): the shared-child statement at the default
branch_length 3. -/
theorem fallback_extension_shared_child_witness :
    ∃ rA rB, (fallback_extension_store 3)[3 - 1]? = some rA ∧
      (fallback_extension_store 3)[3]? = some rB ∧
      rA.children = [0] ∧ rB.children = [0] ∧ 3 - 1 ≠ 3 ∧
      child_of (fallback_extension_store 3) (3 - 1) 0 ∧
      child_of (fallback_extension_store 3) 3 0 :=
  fallback_extension_shared_child 3 (by decide)

end StoryApp
